import Mathlib

/-!
Verification of the Pegasus frontend process launcher.

A shallow embedding of `src/backend/ProcessLauncher.cpp` and proofs about it.

Strings are modelled as `List Char`.  `QString::replace(before, after)` is
modelled by `replaceAll`, which scans left to right, replaces every
occurrence of the pattern, and never rescans inserted replacement text
(Qt's documented behaviour).  `QFileInfo::completeBaseName` is modelled by
`completeBaseNameOf`.  The process lifecycle (`launchGame`, `runProcess`
and the three slots) is modelled as a trace semantics: given the behaviour
of the spawned `QProcess`, the model produces the list of emitted
notifications together with an optional abort (`Q_ASSERT` failure or
`Q_UNREACHABLE`).  The `waitForFinished()` call at line 82 takes no
argument and therefore uses Qt's default 30000 ms timeout, so the model
carries the process's running time and takes a separate timeout branch
when it exceeds that bound.
-/

namespace ProcessLauncher

/-- Prefix matching: `stripPre p s` returns `some r` with `s = p ++ r` when `p` is a prefix
of `s`, and `none` otherwise. -/
def stripPre : List Char → List Char → Option (List Char)
  | [], s => some s
  | _ :: _, [] => none
  | a :: as, b :: bs => if a = b then stripPre as bs else none

/-- Test whether `p` occurs at the start of `s`. -/
def startsWith (p s : List Char) : Bool := (stripPre p s).isSome

/-- Test whether `q` occurs somewhere in `s` (as a contiguous substring). -/
def occursIn (q : List Char) : List Char → Bool
  | [] => startsWith q []
  | c :: cs => startsWith q (c :: cs) || occursIn q cs

/-- Fuelled worker for `replaceAll`; structural recursion on the fuel so
that the kernel can evaluate it. -/
def replF : Nat → List Char → List Char → List Char → List Char
  | 0, _, _, s => s
  | _ + 1, _, _, [] => []
  | f + 1, p, v, c :: cs =>
      if p = [] then c :: cs
      else
        match stripPre p (c :: cs) with
        | some rest => v ++ replF f p v rest
        | none => c :: replF f p v cs

/-- Model of `QString::replace(before, after)` with Qt semantics: every
occurrence of `p` in `s` is replaced by `v`, scanning left to right,
without rescanning inserted text. -/
def replaceAll (p v s : List Char) : List Char := replF s.length p v s

/-- The whitespace characters matched by the regular expression `\s`
(`QRegularExpression("\\s")`, PCRE default character class). -/
def isWSChar (c : Char) : Bool :=
  c = ' ' || c = '\t' || c = '\n' || c = '\r' || c = '\x0B' || c = '\x0C'

/-- Model of `param.contains(WHITESPACE_REGEX)`: the string contains a whitespace
character. -/
def containsWS (s : List Char) : Bool := s.any isWSChar

/-- Model of `param.replace('"', "\"\"\"")`: every double quote becomes three. -/
def tripleQuotes (s : List Char) : List Char :=
  replaceAll ['"'] ['"', '"', '"'] s

/-- The per-parameter sanitisation loop of `createLaunchCommand`:
first triple embedded quotes, then wrap in quotes if the (tripled) value
contains whitespace. -/
def sanitize (s : List Char) : List Char :=
  let t := tripleQuotes s
  if containsWS t then ('"' :: t) ++ ['"'] else t

/-- Model of `QFileInfo::fileName`: the part of the path after the last `/`. -/
def fileNameOf (s : List Char) : List Char :=
  (s.reverse.takeWhile (fun c => c ≠ '/')).reverse

/-- Model of `QFileInfo(path).completeBaseName()`: the file name up to (but not
including) the last `.`; the whole file name when it has no dot. -/
def completeBaseNameOf (s : List Char) : List Char :=
  let f := fileNameOf s
  if f.contains '.' then (((f.reverse).dropWhile (fun c => c ≠ '.')).drop 1).reverse
  else f

/-- The bare placeholder `%ROM%`. -/
def romTok : List Char := ("%ROM%").toList

/-- The bare placeholder `%ROM_RAW%`. -/
def romRawTok : List Char := ("%ROM_RAW%").toList

/-- The bare placeholder `%BASENAME%`. -/
def baseTok : List Char := ("%BASENAME%").toList

/-- The quoted placeholder `"%ROM%"`. -/
def qRomTok : List Char := ("\"%ROM%\"").toList

/-- The quoted placeholder `"%ROM_RAW%"`. -/
def qRomRawTok : List Char := ("\"%ROM_RAW%\"").toList

/-- The quoted placeholder `"%BASENAME%"`. -/
def qBaseTok : List Char := ("\"%BASENAME%\"").toList

/-- Model of `ProcessLauncher::createLaunchCommand`: sanitise the rom path and its
complete base name, then substitute the quoted placeholder forms followed
by the bare forms, in the source's exact order. -/
def createLaunchCommand (template romPath : List Char) : List Char :=
  let pPath := sanitize romPath
  let pBase := sanitize (completeBaseNameOf romPath)
  let s1 := replaceAll qRomTok pPath template
  let s2 := replaceAll qRomRawTok pPath s1
  let s3 := replaceAll qBaseTok pBase s2
  let s4 := replaceAll romTok pPath s3
  let s5 := replaceAll romRawTok pPath s4
  replaceAll baseTok pBase s5

/-- The set of characters appearing in the three bare placeholder tokens. -/
def tokenChars : List Char := ['%', 'R', 'O', 'M', '_', 'A', 'W', 'B', 'S', 'E', 'N']

/-- Side condition: `cleanFor p m` holds when no occurrence of `p` starts strictly inside
`m ++ p` before the final copy of `p`. -/
def cleanFor (p : List Char) : List Char → Bool
  | [] => true
  | c :: cs => !(startsWith p ((c :: cs) ++ p)) && cleanFor p cs

/-- Helper used to decompose `replaceAll`: interleave the chunks with the
replacement value `v`. -/
def joinV (v : List Char) : List (List Char) → List Char
  | [] => []
  | [x] => x
  | x :: y :: t => x ++ v ++ joinV v (y :: t)

/-- All six placeholder forms. -/
def allTokens : List (List Char) :=
  [romTok, romRawTok, baseTok, qRomTok, qRomRawTok, qBaseTok]

/-- None of the six placeholder forms occurs in `s`. -/
def noTokenIn (s : List Char) : Bool :=
  allTokens.all (fun tok => !(occursIn tok s))

/- ### Process lifecycle model -/

/-- Model of `QProcess::ExitStatus`. -/
inductive ExitStatus where
  | NormalExit
  | CrashExit
deriving DecidableEq

/-- Model of `QProcess::ProcessError`. -/
inductive ProcError where
  | FailedToStart
  | Crashed
  | Timedout
  | ReadError
  | WriteError
  | UnknownError
deriving DecidableEq

/-- The observable notifications of a launch. -/
inductive Event where
  | Started (pid : Nat)
  | Failed (err : ProcError)
  | Finished (exitcode : Int) (st : ExitStatus)
  | Done
deriving DecidableEq

/-- The ways the launcher can abort instead of returning:
a `Q_ASSERT` failure or one of the two `Q_UNREACHABLE` branches. -/
inductive Abort where
  | assertOutstanding
  | unreachableIOError
  | unreachableFinished
deriving DecidableEq

/-- The result of a handler or of a whole run: the emitted events and an
optional abort. -/
abbrev Outcome := List Event × Option Abort

/-- Sequential composition: once aborted, nothing later runs. -/
def seqA (x y : Outcome) : Outcome :=
  match x.2 with
  | some _ => x
  | none => (x.1 ++ y.1, y.2)

/-- Model of `ProcessLauncher::onProcessStarted`: logs the started message with the
process id. -/
def onProcessStarted (pid : Nat) : Outcome :=
  ([Event.Started pid], none)

/-- Model of `ProcessLauncher::onProcessFailed`: warn for the operational errors,
`Q_UNREACHABLE` for `ReadError`/`WriteError`. -/
def onProcessFailed (err : ProcError) : Outcome :=
  match err with
  | ProcError.ReadError => ([], some Abort.unreachableIOError)
  | ProcError.WriteError => ([], some Abort.unreachableIOError)
  | e => ([Event.Failed e], none)

/-- Model of `ProcessLauncher::onProcessFinished`: the `NormalExit` case logs and
breaks; the `CrashExit` case logs and then, lacking a `break`, falls
through into the `default:` branch's `Q_UNREACHABLE`. -/
def onProcessFinished (exitcode : Int) (st : ExitStatus) : Outcome :=
  match st with
  | ExitStatus.NormalExit => ([Event.Finished exitcode ExitStatus.NormalExit], none)
  | ExitStatus.CrashExit =>
      ([Event.Finished exitcode ExitStatus.CrashExit], some Abort.unreachableFinished)

/-- Qt's default timeout of `QProcess::waitForFinished()`, in
milliseconds: the call at line 82 passes no argument, so the wait gives
up after this long. -/
def waitTimeoutMs : Nat := 30000

/-- The externally determined behaviour of the spawned `QProcess`:
either the spawn attempt fails, or the process runs with a given pid,
optionally reports a `ProcessError`, and terminates with an exit code and
exit status after `durationMs` milliseconds. -/
inductive ProcBehavior where
  | spawnFail
  | runs (pid : Nat) (err : Option ProcError) (exitcode : Int) (st : ExitStatus)
      (durationMs : Nat)
deriving DecidableEq

/-- The behaviour involves no pipe I/O error (this core never attaches
pipes to the child). -/
def noPipeErr : ProcBehavior → Bool
  | ProcBehavior.runs _ (some ProcError.ReadError) _ _ _ => false
  | ProcBehavior.runs _ (some ProcError.WriteError) _ _ _ => false
  | _ => true

/-- Model of `ProcessLauncher::runProcess`: assert no outstanding handle,
start the process, then block in `waitForFinished()`, whose default
timeout is `waitTimeoutMs` (30000 ms).  If the process terminates within
the timeout, its error and finished signals are delivered during the wait
and `terminate()` afterwards is a no-op on the dead process.  If it is
still running when the timeout expires, the wait returns with no finished
or error notification delivered; `terminate()` and `deleteLater()` are
issued against the still-running child and control returns to the caller,
so only the started notification has been observed.  Whatever the dying
child may still produce would be delivered, if at all, only after the
caller has already emitted `done`, and is outside the modelled trace. -/
def runProcess (outstanding : Bool) (b : ProcBehavior) : Outcome :=
  if outstanding then ([], some Abort.assertOutstanding)
  else
    match b with
    | ProcBehavior.spawnFail => onProcessFailed ProcError.FailedToStart
    | ProcBehavior.runs pid err exitcode st durationMs =>
        if durationMs ≤ waitTimeoutMs then
          seqA (onProcessStarted pid)
            (seqA (match err with
                   | none => ([], none)
                   | some e => onProcessFailed e)
                  (onProcessFinished exitcode st))
        else
          onProcessStarted pid

/-- Model of `ProcessLauncher::launchGame`: build and run the command, then emit
the `processFinished` (done) signal unconditionally after `runProcess`
returns. -/
def launchGame (outstanding : Bool) (b : ProcBehavior) : Outcome :=
  seqA (runProcess outstanding b) ([Event.Done], none)

/-- Event classifier: started notifications. -/
def isStartedEv : Event → Bool
  | Event.Started _ => true
  | _ => false

/-- Event classifier: failed notifications. -/
def isFailedEv : Event → Bool
  | Event.Failed _ => true
  | _ => false

/-- Event classifier: finished notifications. -/
def isFinishedEv : Event → Bool
  | Event.Finished _ _ => true
  | _ => false

/-- Event classifier: the done signal. -/
def isDoneEv : Event → Bool
  | Event.Done => true
  | _ => false

/- ### Basic lemmas about prefix matching and occurrence -/

theorem stripPre_sound : ∀ {p s r : List Char}, stripPre p s = some r → s = p ++ r := by
  intro p
  induction p with
  | nil =>
      intro s r h
      simp [stripPre] at h
      simp [h]
  | cons a as ih =>
      intro s r h
      cases s with
      | nil => simp [stripPre] at h
      | cons b bs =>
          by_cases hab : a = b
          · subst hab
            simp [stripPre] at h
            have := ih h
            simp [this]
          · simp [stripPre, hab] at h

theorem stripPre_complete : ∀ (p r : List Char), stripPre p (p ++ r) = some r := by
  intro p
  induction p with
  | nil => intro r; simp [stripPre]
  | cons a as ih => intro r; simp [stripPre, ih]

theorem startsWith_iff {p s : List Char} : startsWith p s = true ↔ ∃ r, s = p ++ r := by
  constructor
  · intro h
    unfold startsWith at h
    cases hm : stripPre p s with
    | none => rw [hm] at h; simp [Option.isSome] at h
    | some r => exact ⟨r, stripPre_sound hm⟩
  · rintro ⟨r, rfl⟩
    unfold startsWith
    rw [stripPre_complete]
    rfl

theorem stripPre_length {p s r : List Char} (h : stripPre p s = some r) :
    p.length + r.length = s.length := by
  have := stripPre_sound h
  subst this
  simp

theorem occursIn_iff {q : List Char} : ∀ {s : List Char},
    occursIn q s = true ↔ ∃ a b, s = a ++ (q ++ b) := by
  intro s
  induction s with
  | nil =>
      constructor
      · intro h
        have := startsWith_iff.mp h
        obtain ⟨r, hr⟩ := this
        exact ⟨[], r, by simp [hr]⟩
      · rintro ⟨a, b, hab⟩
        have ha : a = [] := by
          cases a with
          | nil => rfl
          | cons x xs => simp at hab
        subst ha
        have hq : q ++ b = [] := by simpa using hab.symm
        show startsWith q [] = true
        rw [startsWith_iff]
        exact ⟨b, hq.symm⟩
  | cons c cs ih =>
      constructor
      · intro h
        rcases Bool.or_eq_true_iff.mp h with h1 | h2
        · obtain ⟨r, hr⟩ := startsWith_iff.mp h1
          exact ⟨[], r, by simp [hr]⟩
        · obtain ⟨a, b, hab⟩ := ih.mp h2
          exact ⟨c :: a, b, by simp [hab]⟩
      · rintro ⟨a, b, hab⟩
        cases a with
        | nil =>
            simp only [List.nil_append] at hab
            have h1 : startsWith q (c :: cs) = true := by
              rw [startsWith_iff]; exact ⟨b, hab⟩
            unfold occursIn
            simp [h1]
        | cons x xs =>
            simp only [List.cons_append, List.cons.injEq] at hab
            obtain ⟨hx, hcs⟩ := hab
            have h2 : occursIn q cs = true := ih.mpr ⟨xs, b, hcs⟩
            unfold occursIn
            simp [h2]

theorem occursIn_nil_iff {q : List Char} : occursIn q [] = true ↔ q = [] := by
  constructor
  · intro h
    obtain ⟨a, b, hab⟩ := occursIn_iff.mp h
    rcases List.append_eq_nil.mp hab.symm with ⟨ha, h2⟩
    rcases List.append_eq_nil.mp h2 with ⟨hq, hb⟩
    exact hq
  · rintro rfl
    show startsWith [] [] = true
    rfl

theorem occursIn_append_right {q a b : List Char} (h : occursIn q b = true) :
    occursIn q (a ++ b) = true := by
  obtain ⟨x, y, hxy⟩ := occursIn_iff.mp h
  exact occursIn_iff.mpr ⟨a ++ x, y, by simp [hxy]⟩

theorem occursIn_append_left {q a b : List Char} (h : occursIn q a = true) :
    occursIn q (a ++ b) = true := by
  obtain ⟨x, y, hxy⟩ := occursIn_iff.mp h
  exact occursIn_iff.mpr ⟨x, y ++ b, by simp [hxy]⟩

theorem occursIn_cons_of {q : List Char} {c : Char} {cs : List Char}
    (h : occursIn q cs = true) : occursIn q (c :: cs) = true := by
  unfold occursIn
  simp [h]

theorem occursIn_of_startsWith {q s : List Char} (h : startsWith q s = true) :
    occursIn q s = true := by
  obtain ⟨r, hr⟩ := startsWith_iff.mp h
  exact occursIn_iff.mpr ⟨[], r, by simp [hr]⟩

theorem occursIn_inner_cons {c : Char} {y s : List Char}
    (h : occursIn (c :: y) s = true) : occursIn y s = true := by
  obtain ⟨a, b, hab⟩ := occursIn_iff.mp h
  exact occursIn_iff.mpr ⟨a ++ [c], b, by simp [hab]⟩

theorem occursIn_inner_append {y d s : List Char}
    (h : occursIn (y ++ d) s = true) : occursIn y s = true := by
  obtain ⟨a, b, hab⟩ := occursIn_iff.mp h
  exact occursIn_iff.mpr ⟨a, d ++ b, by simp [hab]⟩

/- ### Equation lemmas for `replaceAll` -/

theorem replF_congr {p v : List Char} :
    ∀ (f g : Nat) (s : List Char), s.length ≤ f → s.length ≤ g →
      replF f p v s = replF g p v s := by
  intro f
  induction f with
  | zero =>
      intro g s hf hg
      have : s = [] := List.length_eq_zero.mp (Nat.le_zero.mp hf)
      subst this
      cases g <;> rfl
  | succ f ih =>
      intro g s hf hg
      cases s with
      | nil => cases g <;> rfl
      | cons c cs =>
          cases g with
          | zero => simp at hg
          | succ g =>
              by_cases hp : p = []
              · simp [replF, hp]
              · simp only [replF, if_neg hp]
                cases hm : stripPre p (c :: cs) with
                | some rest =>
                    have hlen := stripPre_length hm
                    have hpp : 1 ≤ p.length := by
                      cases p with
                      | nil => exact absurd rfl hp
                      | cons x xs => simp
                    have hr : rest.length ≤ cs.length := by
                      simp at hlen
                      omega
                    have h1 : rest.length ≤ f := by
                      simp at hf; omega
                    have h2 : rest.length ≤ g := by
                      simp at hg; omega
                    show v ++ replF f p v rest = v ++ replF g p v rest
                    rw [ih g rest h1 h2]
                | none =>
                    have h1 : cs.length ≤ f := by simp at hf; omega
                    have h2 : cs.length ≤ g := by simp at hg; omega
                    show c :: replF f p v cs = c :: replF g p v cs
                    rw [ih g cs h1 h2]

theorem replaceAll_nil {p v : List Char} : replaceAll p v [] = [] := by
  cases p <;> rfl

theorem replaceAll_cons_some {p v : List Char} {c : Char} {cs rest : List Char}
    (hp : p ≠ []) (h : stripPre p (c :: cs) = some rest) :
    replaceAll p v (c :: cs) = v ++ replaceAll p v rest := by
  have hlen := stripPre_length h
  have hpp : 1 ≤ p.length := by
    cases p with
    | nil => exact absurd rfl hp
    | cons x xs => simp
  have hr : rest.length ≤ cs.length := by
    simp at hlen
    omega
  unfold replaceAll
  simp only [List.length_cons, replF, if_neg hp, h]
  rw [replF_congr cs.length rest.length rest hr (Nat.le_refl _)]

theorem replaceAll_cons_none {p v : List Char} {c : Char} {cs : List Char}
    (hp : p ≠ []) (h : stripPre p (c :: cs) = none) :
    replaceAll p v (c :: cs) = c :: replaceAll p v cs := by
  unfold replaceAll
  simp only [List.length_cons, replF, if_neg hp, h]

theorem replaceAll_of_no_occur {p v : List Char} (hp : p ≠ []) :
    ∀ {s : List Char}, occursIn p s = false → replaceAll p v s = s := by
  intro s
  induction s with
  | nil => intro _; exact replaceAll_nil
  | cons c cs ih =>
      intro h
      unfold occursIn at h
      rcases Bool.or_eq_false_iff.mp h with ⟨h1, h2⟩
      have hm : stripPre p (c :: cs) = none := by
        unfold startsWith at h1
        cases hm : stripPre p (c :: cs) with
        | none => rfl
        | some r => rw [hm] at h1; simp [Option.isSome] at h1
      rw [replaceAll_cons_none hp hm, ih h2]

/- ### Occurrences across appends and through replacement -/

theorem occursIn_append_cases {q z : List Char} : ∀ {x : List Char},
    occursIn q (x ++ z) = true →
    occursIn q z = true ∨
      ∃ x1 x2, x = x1 ++ x2 ∧ x2 ≠ [] ∧ startsWith q (x2 ++ z) = true := by
  intro x
  induction x with
  | nil => intro h; exact Or.inl h
  | cons c cs ih =>
      intro h
      unfold occursIn at h
      rcases Bool.or_eq_true_iff.mp h with h1 | h2
      · exact Or.inr ⟨[], c :: cs, by simp, by simp, h1⟩
      · rcases ih h2 with h3 | ⟨x1, x2, hx, hne, hsw⟩
        · exact Or.inl h3
        · exact Or.inr ⟨c :: x1, x2, by simp [hx], hne, hsw⟩

theorem startsWith_append_split {z : List Char} : ∀ {x2 q : List Char},
    startsWith q (x2 ++ z) = true →
    (∃ w, q = x2 ++ w ∧ startsWith w z = true) ∨ ∃ w, x2 = q ++ w := by
  intro x2
  induction x2 with
  | nil =>
      intro q h
      exact Or.inl ⟨q, by simp, h⟩
  | cons c x2' ih =>
      intro q h
      cases q with
      | nil => exact Or.inr ⟨c :: x2', by simp⟩
      | cons qh qt =>
          have hq : qh = c ∧ startsWith qt (x2' ++ z) = true := by
            unfold startsWith at h
            by_cases hqc : qh = c
            · constructor
              · exact hqc
              · subst hqc
                simpa [stripPre] using h
            · exfalso
              simp [stripPre, hqc] at h
          obtain ⟨rfl, hsw⟩ := hq
          rcases ih hsw with ⟨w, hqw, hw⟩ | ⟨w, hx⟩
          · exact Or.inl ⟨w, by simp [hqw], hw⟩
          · exact Or.inr ⟨w, by simp [hx]⟩

theorem occursIn_v_append {q u : List Char} : ∀ {v : List Char},
    q ≠ [] → (∀ c ∈ v, c ∉ q) → occursIn q (v ++ u) = true → occursIn q u = true := by
  intro v
  induction v with
  | nil => intro _ _ h; exact h
  | cons c v' ih =>
      intro hq hd h
      unfold occursIn at h
      rcases Bool.or_eq_true_iff.mp h with h1 | h2
      · exfalso
        cases q with
        | nil => exact hq rfl
        | cons qh qt =>
            have hqc : qh = c := by
              unfold startsWith at h1
              by_cases hqc : qh = c
              · exact hqc
              · simp [stripPre, hqc] at h1
            have hc : c ∈ c :: v' := by simp
            have hnotin := hd c hc
            apply hnotin
            rw [hqc]
            simp
      · exact ih hq (fun x hx => hd x (by simp [hx])) h2

theorem joinV_cons_head {v : List Char} {c : Char} {h : List Char} {t : List (List Char)} :
    joinV v ((c :: h) :: t) = c :: joinV v (h :: t) := by
  cases t with
  | nil => rfl
  | cons y t' => simp [joinV]

theorem occursIn_joinV {q v : List Char} (hq : q ≠ []) (hv : v ≠ [])
    (hd : ∀ c ∈ v, c ∉ q) :
    ∀ chunks, occursIn q (joinV v chunks) = true →
      ∃ ch, ch ∈ chunks ∧ occursIn q ch = true := by
  intro chunks
  induction chunks with
  | nil =>
      intro h
      rw [show joinV v [] = [] from rfl] at h
      have := occursIn_nil_iff.mp h
      exact absurd this hq
  | cons x rest ih =>
      cases rest with
      | nil =>
          intro h
          exact ⟨x, by simp, h⟩
      | cons y t =>
          intro h
          have hjoin : joinV v (x :: y :: t) = x ++ (v ++ joinV v (y :: t)) := by
            simp [joinV]
          rw [hjoin] at h
          rcases occursIn_append_cases h with h1 | ⟨x1, x2, hx, hne, hsw⟩
          · have h2 := occursIn_v_append hq hd h1
            obtain ⟨ch, hch, hoc⟩ := ih h2
            exact ⟨ch, by simp [List.mem_cons] at hch ⊢; tauto, hoc⟩
          · rcases startsWith_append_split hsw with ⟨w, hqw, hw⟩ | ⟨w, hxw⟩
            · cases w with
              | nil =>
                  refine ⟨x, by simp, ?_⟩
                  simp only [List.append_nil] at hqw
                  exact occursIn_iff.mpr ⟨x1, [], by simp [hx, hqw]⟩
              | cons wh wt =>
                  exfalso
                  obtain ⟨r, hr⟩ := startsWith_iff.mp hw
                  cases v with
                  | nil => exact hv rfl
                  | cons vh vt =>
                      have hr' : vh :: (vt ++ joinV (vh :: vt) (y :: t)) = wh :: (wt ++ r) := by
                        simpa using hr
                      have hwh : vh = wh := by
                        injection hr'
                      have hmem : wh ∈ q := by
                        rw [hqw]
                        simp
                      have hni := hd vh (by simp)
                      rw [hwh] at hni
                      exact hni hmem
            · refine ⟨x, by simp, ?_⟩
              exact occursIn_iff.mpr ⟨x1, w, by simp [hx, hxw]⟩

theorem occursIn_nil_pattern : ∀ s : List Char, occursIn [] s = true := by
  intro s
  cases s with
  | nil => rfl
  | cons c cs => simp [occursIn, startsWith, stripPre]

theorem occursIn_nil_of_ne {p : List Char} (hp : p ≠ []) : occursIn p [] = false := by
  cases hO : occursIn p [] with
  | false => rfl
  | true => exact absurd (occursIn_nil_iff.mp hO) hp

theorem replF_chunks {p v : List Char} (hp : p ≠ []) :
    ∀ (f : Nat) (s : List Char), s.length ≤ f →
      ∃ h t, replF f p v s = joinV v (h :: t) ∧ (∃ r, s = h ++ r) ∧
        ∀ ch ∈ h :: t,
          (∀ q, occursIn q ch = true → occursIn q s = true) ∧ occursIn p ch = false := by
  intro f
  induction f with
  | zero =>
      intro s hf
      have hs : s = [] := List.length_eq_zero.mp (Nat.le_zero.mp hf)
      subst hs
      refine ⟨[], [], rfl, ⟨[], rfl⟩, ?_⟩
      intro ch hch
      have : ch = [] := by simpa using hch
      subst this
      constructor
      · intro q hq
        have := occursIn_nil_iff.mp hq
        subst this
        exact occursIn_nil_pattern []
      · exact occursIn_nil_of_ne hp
  | succ f ih =>
      intro s hf
      cases s with
      | nil =>
          refine ⟨[], [], rfl, ⟨[], rfl⟩, ?_⟩
          intro ch hch
          have : ch = [] := by simpa using hch
          subst this
          constructor
          · intro q hq
            have := occursIn_nil_iff.mp hq
            subst this
            exact occursIn_nil_pattern []
          · exact occursIn_nil_of_ne hp
      | cons c cs =>
          have hcs : cs.length ≤ f := by simp at hf; omega
          cases hm : stripPre p (c :: cs) with
          | some rest =>
              have hs : c :: cs = p ++ rest := stripPre_sound hm
              have hpp : 1 ≤ p.length := by
                cases p with
                | nil => exact absurd rfl hp
                | cons x xs => simp
              have hrest : rest.length ≤ f := by
                have := stripPre_length hm
                simp at this
                omega
              obtain ⟨h', t', heq, ⟨r, hpre⟩, hfacts⟩ := ih rest hrest
              refine ⟨[], h' :: t', ?_, ⟨c :: cs, rfl⟩, ?_⟩
              · show replF (f + 1) p v (c :: cs) = joinV v ([] :: h' :: t')
                have hj : joinV v ([] :: h' :: t') = v ++ joinV v (h' :: t') := by
                  simp [joinV]
                rw [hj]
                simp only [replF, if_neg hp, hm]
                rw [heq]
              · intro ch hch
                rcases List.mem_cons.mp hch with hch0 | hch1
                · subst hch0
                  constructor
                  · intro q hq
                    have := occursIn_nil_iff.mp hq
                    subst this
                    exact occursIn_nil_pattern _
                  · exact occursIn_nil_of_ne hp
                · constructor
                  · intro q hq
                    have h1 := (hfacts ch hch1).1 q hq
                    have h2 : occursIn q (p ++ rest) = true := occursIn_append_right h1
                    rw [← hs] at h2
                    exact h2
                  · exact (hfacts ch hch1).2
          | none =>
              obtain ⟨h', t', heq, ⟨r, hpre⟩, hfacts⟩ := ih cs hcs
              refine ⟨c :: h', t', ?_, ⟨r, by simp [hpre]⟩, ?_⟩
              · show replF (f + 1) p v (c :: cs) = joinV v ((c :: h') :: t')
                rw [joinV_cons_head, ← heq]
                simp only [replF, if_neg hp, hm]
              · intro ch hch
                rcases List.mem_cons.mp hch with hch0 | hch1
                · subst hch0
                  constructor
                  · intro q hq
                    unfold occursIn at hq
                    rcases Bool.or_eq_true_iff.mp hq with h1 | h2
                    · obtain ⟨u, hu⟩ := startsWith_iff.mp h1
                      refine occursIn_iff.mpr ⟨[], u ++ r, ?_⟩
                      have : (c :: h') ++ r = q ++ u ++ r := by rw [hu]
                      simpa [hpre] using this
                    · have h3 := (hfacts h' (by simp)).1 q h2
                      exact occursIn_cons_of h3
                  · cases hO : occursIn p (c :: h') with
                    | false => rfl
                    | true =>
                        exfalso
                        unfold occursIn at hO
                        rcases Bool.or_eq_true_iff.mp hO with h1 | h2
                        · obtain ⟨u, hu⟩ := startsWith_iff.mp h1
                          have hfull : c :: cs = p ++ (u ++ r) := by
                            have : (c :: h') ++ r = p ++ u ++ r := by rw [hu]
                            simpa [hpre] using this
                          rw [hfull, stripPre_complete] at hm
                          exact Option.noConfusion hm
                        · have := (hfacts h' (by simp)).2
                          rw [this] at h2
                          exact Bool.noConfusion h2
                · constructor
                  · intro q hq
                    exact occursIn_cons_of ((hfacts ch (by simp [hch1])).1 q hq)
                  · exact (hfacts ch (by simp [hch1])).2

theorem replaceAll_no_self {p v : List Char} (hp : p ≠ []) (hv : v ≠ [])
    (hd : ∀ c ∈ v, c ∉ p) (s : List Char) :
    occursIn p (replaceAll p v s) = false := by
  cases hO : occursIn p (replaceAll p v s) with
  | false => rfl
  | true =>
      exfalso
      obtain ⟨h, t, heq, _, hfacts⟩ := replF_chunks hp s.length s (Nat.le_refl _)
      unfold replaceAll at hO
      rw [heq] at hO
      obtain ⟨ch, hch, hoc⟩ := occursIn_joinV hp hv hd _ hO
      rw [(hfacts ch hch).2] at hoc
      exact Bool.noConfusion hoc

theorem replaceAll_no_new {p q v : List Char} (hp : p ≠ []) (hq : q ≠ []) (hv : v ≠ [])
    (hd : ∀ c ∈ v, c ∉ q) {s : List Char} (hs : occursIn q s = false) :
    occursIn q (replaceAll p v s) = false := by
  cases hO : occursIn q (replaceAll p v s) with
  | false => rfl
  | true =>
      exfalso
      obtain ⟨h, t, heq, _, hfacts⟩ := replF_chunks hp s.length s (Nat.le_refl _)
      unfold replaceAll at hO
      rw [heq] at hO
      obtain ⟨ch, hch, hoc⟩ := occursIn_joinV hq hv hd _ hO
      have := (hfacts ch hch).1 q hoc
      rw [hs] at this
      exact Bool.noConfusion this

theorem replaceAll_head {p v : List Char} (x : List Char) (hp : p ≠ []) :
    replaceAll p v (p ++ x) = v ++ replaceAll p v x := by
  cases p with
  | nil => exact absurd rfl hp
  | cons a as =>
      have hm : stripPre (a :: as) (a :: (as ++ x)) = some x := stripPre_complete (a :: as) x
      exact replaceAll_cons_some hp hm

theorem replaceAll_mid {p v : List Char} (hp : p ≠ []) :
    ∀ m, cleanFor p m = true → replaceAll p v (m ++ p) = m ++ v := by
  intro m
  induction m with
  | nil =>
      intro _
      show replaceAll p v ([] ++ p) = [] ++ v
      simp only [List.nil_append]
      have h1 : replaceAll p v (p ++ []) = v ++ replaceAll p v [] := replaceAll_head [] hp
      simp only [List.append_nil] at h1
      rw [h1, replaceAll_nil, List.append_nil]
  | cons c m' ih =>
      intro hc
      unfold cleanFor at hc
      simp only [Bool.and_eq_true, Bool.not_eq_true] at hc
      obtain ⟨hsw, h2⟩ := hc
      have hm : stripPre p (c :: (m' ++ p)) = none := by
        have he : (c :: m') ++ p = c :: (m' ++ p) := rfl
        rw [he] at hsw
        unfold startsWith at hsw
        cases hmm : stripPre p (c :: (m' ++ p)) with
        | none => rfl
        | some r => rw [hmm] at hsw; simp [Option.isSome] at hsw
      calc replaceAll p v ((c :: m') ++ p)
          = replaceAll p v (c :: (m' ++ p)) := rfl
        _ = c :: replaceAll p v (m' ++ p) := replaceAll_cons_none hp hm
        _ = c :: (m' ++ v) := by rw [ih h2]
        _ = (c :: m') ++ v := rfl

/- ### Claim theorems -/

/-- C1: the spec says that when the process terminates with crash status the
finished handler reports the crash outcome (with its exit code) and returns
normally.  In the code the `CrashExit` case of `onProcessFinished` lacks a
`break` and falls through into the `default:` branch's `Q_UNREACHABLE`, so
the handler logs the crash outcome and then aborts; consequently a crashed
run never reaches the `done` signal.  This theorem evaluates the model at
the failing input (crash status, exit code 11). -/
theorem c1_crash_finished_hits_unreachable :
    onProcessFinished 11 ExitStatus.CrashExit =
      ([Event.Finished 11 ExitStatus.CrashExit], some Abort.unreachableFinished) ∧
    launchGame false (ProcBehavior.runs 7 (some ProcError.Crashed) 11 ExitStatus.CrashExit 1000) =
      ([Event.Started 7, Event.Failed ProcError.Crashed, Event.Finished 11 ExitStatus.CrashExit],
        some Abort.unreachableFinished) := by
  decide

/-- C2 counterexample: for template `run "%ROM%"` and path `/roms/a.rom` the
built command is `run /roms/a.rom`, not the spec's `run "a.rom"`: the
quoted-form replacement consumes the template's literal quotes (no quote
character remains in the output) and substitutes the full sanitized path,
so the claim that the value still sits inside the template's quotes is
false. -/
theorem c2_quoted_template_counterexample :
    createLaunchCommand (("run \"%ROM%\"").toList) (("/roms/a.rom").toList) =
      ("run /roms/a.rom").toList ∧
    createLaunchCommand (("run \"%ROM%\"").toList) (("/roms/a.rom").toList) ≠
      ("run \"a.rom\"").toList ∧
    occursIn ['"'] (createLaunchCommand (("run \"%ROM%\"").toList) (("/roms/a.rom").toList)) =
      false := by
  decide

/-- C2 (amended): for template `run "%ROM%"` and path `/roms/a.rom`, the
quoted-form replacement fires and replaces the quoted placeholder together
with its surrounding quote characters by the sanitized path (which is
unwrapped, since the path has no whitespace), yielding `run /roms/a.rom`. -/
theorem c2_quoted_template_replaced_whole :
    createLaunchCommand (("run \"%ROM%\"").toList) (("/roms/a.rom").toList) =
      ("run /roms/a.rom").toList := by
  decide

/-- C3: sanitisation first triples every double quote and then wraps the
result in one pair of quotes exactly when the (tripled) value contains a
whitespace character; a value with no whitespace and no quote characters
passes through unchanged. -/
theorem c3_sanitize_triples_then_wraps :
    (∀ s : List Char, sanitize s =
        (if containsWS (tripleQuotes s) then ('"' :: tripleQuotes s) ++ ['"']
         else tripleQuotes s)) ∧
    (∀ s : List Char, containsWS s = false → '"' ∉ s → sanitize s = s) ∧
    sanitize (("a\"b").toList) = ("a\"\"\"b").toList ∧
    sanitize (("a \"b").toList) = ("\"a \"\"\"b\"").toList := by
  refine ⟨fun s => rfl, ?_, by decide, by decide⟩
  intro s hws hq
  have hocc : occursIn ['"'] s = false := by
    cases hO : occursIn ['"'] s with
    | false => rfl
    | true =>
        exfalso
        obtain ⟨a, b, hab⟩ := occursIn_iff.mp hO
        apply hq
        rw [hab]
        simp
  have htq : tripleQuotes s = s := replaceAll_of_no_occur (by decide) hocc
  simp [sanitize, htq, hws]

/-- C3 witness: the hypotheses of the pass-through conjunct hold at the
concrete value `abc`, and sanitisation leaves it unchanged. -/
theorem c3_sanitize_triples_then_wraps_witness :
    containsWS (("abc").toList) = false ∧ '"' ∉ (("abc").toList) ∧
    sanitize (("abc").toList) = ("abc").toList :=
  ⟨by decide, by decide,
    c3_sanitize_triples_then_wraps.2.1 (("abc").toList) (by decide) (by decide)⟩

/-- C4: substitution happens in the source's exact order (quoted forms
`"%ROM%"`, `"%ROM_RAW%"`, `"%BASENAME%"` first, then the bare forms, with
the sanitized path for the two ROM forms and the sanitized basename for
the BASENAME forms), and for template `"%BASENAME%" --fullscreen` with
path `/roms/Super Game!.rom` it produces `"Super Game!" --fullscreen`,
wrapped in exactly one pair of quotes. -/
theorem c4_quoted_before_bare_order :
    (∀ t p : List Char, createLaunchCommand t p =
      replaceAll baseTok (sanitize (completeBaseNameOf p))
        (replaceAll romRawTok (sanitize p)
          (replaceAll romTok (sanitize p)
            (replaceAll qBaseTok (sanitize (completeBaseNameOf p))
              (replaceAll qRomRawTok (sanitize p)
                (replaceAll qRomTok (sanitize p) t)))))) ∧
    createLaunchCommand (("\"%BASENAME%\" --fullscreen").toList)
        (("/roms/Super Game!.rom").toList) =
      ("\"Super Game!\" --fullscreen").toList :=
  ⟨fun t p => rfl, by decide⟩

/-- C5 counterexample: the sanitized path and sanitized basename of path
`ROM` contain none of the six placeholder forms as literal text, yet for
template `%%ROM%%` the built command still contains `%ROM%`: the bare-form
replacement splices a new `%ROM%` together out of template fragments and
the substituted value. -/
theorem c5_leftover_token_counterexample :
    noTokenIn (sanitize (("ROM").toList)) = true ∧
    noTokenIn (sanitize (completeBaseNameOf (("ROM").toList))) = true ∧
    occursIn romTok (createLaunchCommand (("%%ROM%%").toList) (("ROM").toList)) = true := by
  decide

/-- Helper for C5: the full substitution chain leaves no placeholder form
when both substituted values are nonempty and avoid every character of the
placeholder alphabet. -/
theorem substitution_chain_no_token (T u w : List Char) (hu : u ≠ []) (hw : w ≠ [])
    (huc : ∀ c ∈ u, c ∉ tokenChars) (hwc : ∀ c ∈ w, c ∉ tokenChars) :
    noTokenIn
      (replaceAll baseTok w
        (replaceAll romRawTok u
          (replaceAll romTok u
            (replaceAll qBaseTok w
              (replaceAll qRomRawTok u
                (replaceAll qRomTok u T)))))) = true := by
  have hsubRom : ∀ c ∈ romTok, c ∈ tokenChars := by decide
  have hsubRaw : ∀ c ∈ romRawTok, c ∈ tokenChars := by decide
  have hsubBase : ∀ c ∈ baseTok, c ∈ tokenChars := by decide
  have hdRomU : ∀ c ∈ u, c ∉ romTok := fun c hc hm => huc c hc (hsubRom c hm)
  have hdRomW : ∀ c ∈ w, c ∉ romTok := fun c hc hm => hwc c hc (hsubRom c hm)
  have hdRawU : ∀ c ∈ u, c ∉ romRawTok := fun c hc hm => huc c hc (hsubRaw c hm)
  have hdRawW : ∀ c ∈ w, c ∉ romRawTok := fun c hc hm => hwc c hc (hsubRaw c hm)
  have hdBaseW : ∀ c ∈ w, c ∉ baseTok := fun c hc hm => hwc c hc (hsubBase c hm)
  set s3 := replaceAll qBaseTok w (replaceAll qRomRawTok u (replaceAll qRomTok u T)) with hs3
  set s4 := replaceAll romTok u s3 with hs4
  set s5 := replaceAll romRawTok u s4 with hs5
  set s6 := replaceAll baseTok w s5 with hs6
  have hRom4 : occursIn romTok s4 = false := by
    rw [hs4]; exact replaceAll_no_self (by decide) hu hdRomU s3
  have hRom5 : occursIn romTok s5 = false := by
    rw [hs5]; exact replaceAll_no_new (by decide) (by decide) hu hdRomU hRom4
  have hRom6 : occursIn romTok s6 = false := by
    rw [hs6]; exact replaceAll_no_new (by decide) (by decide) hw hdRomW hRom5
  have hRaw5 : occursIn romRawTok s5 = false := by
    rw [hs5]; exact replaceAll_no_self (by decide) hu hdRawU s4
  have hRaw6 : occursIn romRawTok s6 = false := by
    rw [hs6]; exact replaceAll_no_new (by decide) (by decide) hw hdRawW hRaw5
  have hBase6 : occursIn baseTok s6 = false := by
    rw [hs6]; exact replaceAll_no_self (by decide) hw hdBaseW s5
  have hqRom : occursIn qRomTok s6 = false := by
    cases hO : occursIn qRomTok s6 with
    | false => rfl
    | true =>
        exfalso
        have he : qRomTok = '"' :: (romTok ++ ['"']) := by decide
        rw [he] at hO
        have h1 := occursIn_inner_append (occursIn_inner_cons hO)
        rw [hRom6] at h1
        exact Bool.noConfusion h1
  have hqRaw : occursIn qRomRawTok s6 = false := by
    cases hO : occursIn qRomRawTok s6 with
    | false => rfl
    | true =>
        exfalso
        have he : qRomRawTok = '"' :: (romRawTok ++ ['"']) := by decide
        rw [he] at hO
        have h1 := occursIn_inner_append (occursIn_inner_cons hO)
        rw [hRaw6] at h1
        exact Bool.noConfusion h1
  have hqBase : occursIn qBaseTok s6 = false := by
    cases hO : occursIn qBaseTok s6 with
    | false => rfl
    | true =>
        exfalso
        have he : qBaseTok = '"' :: (baseTok ++ ['"']) := by decide
        rw [he] at hO
        have h1 := occursIn_inner_append (occursIn_inner_cons hO)
        rw [hBase6] at h1
        exact Bool.noConfusion h1
  simp [noTokenIn, allTokens, hRom6, hRaw6, hBase6, hqRom, hqRaw, hqBase]

/-- C5 (amended): for every template and path whose sanitized path and
sanitized basename are nonempty and contain none of the characters of the
placeholder alphabet (`%`, `R`, `O`, `M`, `_`, `A`, `W`, `B`, `S`, `E`,
`N`), the built command contains no remaining occurrence of `%ROM%`,
`%ROM_RAW%` or `%BASENAME%`, in either bare or quoted form. -/
theorem c5_no_leftover_placeholder (T P : List Char)
    (hu : sanitize P ≠ [])
    (hw : sanitize (completeBaseNameOf P) ≠ [])
    (huc : ∀ c ∈ sanitize P, c ∉ tokenChars)
    (hwc : ∀ c ∈ sanitize (completeBaseNameOf P), c ∉ tokenChars) :
    noTokenIn (createLaunchCommand T P) = true :=
  substitution_chain_no_token T (sanitize P) (sanitize (completeBaseNameOf P))
    hu hw huc hwc

/-- C5 witness: the amended hypotheses hold for path `/tmp/foo.zip`, and
the built command for template `run "%ROM%" %BASENAME%` contains no
remaining placeholder. -/
theorem c5_no_leftover_placeholder_witness :
    sanitize (("/tmp/foo.zip").toList) ≠ [] ∧
    sanitize (completeBaseNameOf (("/tmp/foo.zip").toList)) ≠ [] ∧
    (∀ c ∈ sanitize (("/tmp/foo.zip").toList), c ∉ tokenChars) ∧
    (∀ c ∈ sanitize (completeBaseNameOf (("/tmp/foo.zip").toList)), c ∉ tokenChars) ∧
    noTokenIn (createLaunchCommand (("run \"%ROM%\" %BASENAME%").toList)
      (("/tmp/foo.zip").toList)) = true :=
  ⟨by decide, by decide, by decide, by decide,
    c5_no_leftover_placeholder (("run \"%ROM%\" %BASENAME%").toList)
      (("/tmp/foo.zip").toList) (by decide) (by decide) (by decide) (by decide)⟩

/-- C6: the basename substituted for `%BASENAME%` is the file name with
the directory part and only the last extension stripped; a bare filename
behaves the same as one with a directory component. -/
theorem c6_complete_basename :
    completeBaseNameOf (("/a/b/game.zip").toList) = ("game").toList ∧
    completeBaseNameOf (("game.tar.gz").toList) = ("game.tar").toList ∧
    completeBaseNameOf (("game").toList) = ("game").toList ∧
    completeBaseNameOf (("game.zip").toList) = ("game").toList ∧
    completeBaseNameOf (("/a/b/game.tar.gz").toList) = ("game.tar").toList ∧
    createLaunchCommand (("%BASENAME%").toList) (("/a/b/game.zip").toList) = ("game").toList ∧
    createLaunchCommand (("%BASENAME%").toList) (("game.tar.gz").toList) = ("game.tar").toList := by
  decide

/-- C7 counterexample: `waitForFinished()` (line 82) uses Qt's default
30000 ms timeout, so a run whose process spawns successfully and exits
normally only after 40000 ms observes the done signal with no finished
notification before it: the wait gives up, `terminate()` and
`deleteLater()` are issued against the still-running child, `runProcess`
returns, and `done` fires while the process is still alive.  The claimed
sequence (one finished, then done) is therefore false for this run. -/
theorem c7_timeout_counterexample :
    launchGame false (ProcBehavior.runs 7 none 0 ExitStatus.NormalExit 40000) =
      ([Event.Started 7, Event.Done], none) ∧
    (launchGame false (ProcBehavior.runs 7 none 0 ExitStatus.NormalExit 40000)).1.countP
      isFinishedEv = 0 := by
  decide

/-- C7 (amended): a run whose process spawns successfully and exits
normally within the 30000 ms `waitForFinished` timeout emits exactly one
started notification (with the process id), zero failed, one finished,
and one done signal, in that order. -/
theorem c7_success_trace_within_timeout (pid : Nat) (code : Int) (d : Nat)
    (hd : d ≤ waitTimeoutMs) :
    launchGame false (ProcBehavior.runs pid none code ExitStatus.NormalExit d) =
      ([Event.Started pid, Event.Finished code ExitStatus.NormalExit, Event.Done], none) ∧
    ([Event.Started pid, Event.Finished code ExitStatus.NormalExit, Event.Done].countP
        isStartedEv = 1 ∧
      [Event.Started pid, Event.Finished code ExitStatus.NormalExit, Event.Done].countP
        isFailedEv = 0 ∧
      [Event.Started pid, Event.Finished code ExitStatus.NormalExit, Event.Done].countP
        isFinishedEv = 1 ∧
      [Event.Started pid, Event.Finished code ExitStatus.NormalExit, Event.Done].countP
        isDoneEv = 1) := by
  refine ⟨?_, ?_, ?_, ?_, ?_⟩ <;>
    simp [launchGame, runProcess, hd, seqA, onProcessStarted, onProcessFinished,
      List.countP_cons, isStartedEv, isFailedEv, isFinishedEv, isDoneEv]

/-- C7 witness: the within-timeout hypothesis holds for a 5 ms run, and
the amended trace is observed there. -/
theorem c7_success_trace_within_timeout_witness :
    (5 : Nat) ≤ waitTimeoutMs ∧
    (launchGame false (ProcBehavior.runs 7 none 0 ExitStatus.NormalExit 5) =
      ([Event.Started 7, Event.Finished 0 ExitStatus.NormalExit, Event.Done], none) ∧
    ([Event.Started 7, Event.Finished 0 ExitStatus.NormalExit, Event.Done].countP
        isStartedEv = 1 ∧
      [Event.Started 7, Event.Finished 0 ExitStatus.NormalExit, Event.Done].countP
        isFailedEv = 0 ∧
      [Event.Started 7, Event.Finished 0 ExitStatus.NormalExit, Event.Done].countP
        isFinishedEv = 1 ∧
      [Event.Started 7, Event.Finished 0 ExitStatus.NormalExit, Event.Done].countP
        isDoneEv = 1)) :=
  ⟨by decide, c7_success_trace_within_timeout 7 0 5 (by decide)⟩

/-- C8: a run whose spawn attempt fails emits zero started, exactly one
failed notification of kind FailedToStart, zero finished, then one done
signal; and whenever `runProcess` returns (does not abort), the done
signal is appended unconditionally after its events, regardless of the
outcome. -/
theorem c8_spawn_failure_trace :
    launchGame false ProcBehavior.spawnFail =
      ([Event.Failed ProcError.FailedToStart, Event.Done], none) ∧
    (∀ (o : Bool) (b : ProcBehavior), (runProcess o b).2 = none →
      launchGame o b = ((runProcess o b).1 ++ [Event.Done], none)) := by
  refine ⟨rfl, ?_⟩
  intro o b h
  show seqA (runProcess o b) ([Event.Done], none) = ((runProcess o b).1 ++ [Event.Done], none)
  rcases hE : runProcess o b with ⟨evs, ab⟩
  rw [hE] at h
  simp at h
  subst h
  rfl

/-- C8 witness: the done-unconditionally conjunct applied to the
spawn-failure behaviour. -/
theorem c8_spawn_failure_trace_witness :
    (runProcess false ProcBehavior.spawnFail).2 = none ∧
    launchGame false ProcBehavior.spawnFail =
      ((runProcess false ProcBehavior.spawnFail).1 ++ [Event.Done], none) :=
  ⟨by decide, c8_spawn_failure_trace.2 false ProcBehavior.spawnFail (by decide)⟩

/-- C9: starting a run while a process handle is still owned aborts via
the assertion, a failed notification of kind ReadError or WriteError
aborts via `Q_UNREACHABLE`, and under the precondition that no process is
outstanding and the behaviour involves no pipe I/O error those two abort
branches are never reached. -/
theorem c9_invariant_violations_abort :
    (∀ b, (runProcess true b).2 = some Abort.assertOutstanding) ∧
    (onProcessFailed ProcError.ReadError).2 = some Abort.unreachableIOError ∧
    (onProcessFailed ProcError.WriteError).2 = some Abort.unreachableIOError ∧
    (∀ b, noPipeErr b = true →
      (launchGame false b).2 ≠ some Abort.assertOutstanding ∧
      (launchGame false b).2 ≠ some Abort.unreachableIOError) := by
  refine ⟨fun b => rfl, rfl, rfl, ?_⟩
  intro b hb
  cases b with
  | spawnFail => exact ⟨by decide, by decide⟩
  | runs pid err code st d =>
      by_cases hd : d ≤ waitTimeoutMs
      · cases err with
        | none =>
            cases st <;>
              constructor <;>
                simp [launchGame, runProcess, hd, seqA, onProcessStarted, onProcessFinished]
        | some e =>
            cases e <;> cases st <;>
              first
                | ((constructor <;>
                    simp [launchGame, runProcess, hd, seqA, onProcessStarted, onProcessFailed,
                      onProcessFinished]); done)
                | (exfalso; simp [noPipeErr] at hb)
      · constructor <;>
          simp [launchGame, runProcess, hd, seqA, onProcessStarted]

/-- C9 witness: the abort conjuncts and the precondition conjunct applied
at a concrete behaviour with no outstanding handle and no pipe I/O. -/
theorem c9_invariant_violations_abort_witness :
    noPipeErr ProcBehavior.spawnFail = true ∧
    (runProcess true ProcBehavior.spawnFail).2 = some Abort.assertOutstanding ∧
    (launchGame false ProcBehavior.spawnFail).2 ≠ some Abort.assertOutstanding ∧
    (launchGame false ProcBehavior.spawnFail).2 ≠ some Abort.unreachableIOError :=
  ⟨by decide, c9_invariant_violations_abort.1 ProcBehavior.spawnFail,
    (c9_invariant_violations_abort.2.2.2 ProcBehavior.spawnFail (by decide)).1,
    (c9_invariant_violations_abort.2.2.2 ProcBehavior.spawnFail (by decide)).2⟩

/-- C10: placeholder substitution is global, not first-occurrence-only:
for every pattern, replacement value and separating middle that contains
no occurrence of the pattern, both outer occurrences are replaced with the
identical value; concretely, a template with two bare or two quoted
occurrences of `%ROM%` has both replaced with the same sanitized path. -/
theorem c10_replacement_is_global :
    (∀ (p v m : List Char), p ≠ [] → cleanFor p m = true →
      replaceAll p v (p ++ m ++ p) = v ++ m ++ v) ∧
    createLaunchCommand (("%ROM% %ROM%").toList) (("/roms/a.rom").toList) =
      ("/roms/a.rom /roms/a.rom").toList ∧
    createLaunchCommand (("\"%ROM%\" \"%ROM%\"").toList) (("/roms/a b.rom").toList) =
      ("\"/roms/a b.rom\" \"/roms/a b.rom\"").toList := by
  refine ⟨?_, by decide, by decide⟩
  intro p v m hp hc
  rw [List.append_assoc, replaceAll_head (m ++ p) hp, replaceAll_mid hp m hc,
    List.append_assoc]

/-- C10 witness: the general conjunct applied to the token `%ROM%` with a
one-character value and a one-character middle. -/
theorem c10_replacement_is_global_witness :
    romTok ≠ [] ∧ cleanFor romTok ((" ").toList) = true ∧
    replaceAll romTok (("x").toList) (romTok ++ (" ").toList ++ romTok) =
      ("x").toList ++ (" ").toList ++ ("x").toList :=
  ⟨by decide, by decide,
    c10_replacement_is_global.1 romTok (("x").toList) ((" ").toList)
      (by decide) (by decide)⟩

end ProcessLauncher
